import Mathlib

/-
Verification of the name-matching and proximity-search core of the
australian-postcodes server.

The embedding mirrors, definition by definition, the Python source in
src/utils/fuzzy_match.py, src/database.py and src/tools/location_tools.py.

Modelling conventions:
  * Python floats are modelled as exact rationals.  The float arithmetic
    used by the source (division, addition, multiplication, min, round,
    abs) is embedded through kernel-computable operations on `Rat`
    (`mkRat`, `Rat.divInt`, numerator/denominator arithmetic), so that
    every definition evaluates by `decide`.
  * Python's stable `list.sort` / `sorted` is modelled by
    `List.insertionSort`, which is a stable sort; stable sorts agree on
    every input, so this is observationally faithful.
  * Python strings are sequences of characters; the string primitives the
    source uses (`str.lower`, `str.strip`, `str.split`, `str.startswith`,
    slicing, `in`, `join`) are defined below over `String.data`.
  * The external libraries `rapidfuzz` (the similarity scorer) and
    `metaphone` (double metaphone) are not part of this repository; they
    enter the embedding as explicit function parameters (`ratio`,
    `dmeta`).  A concrete executable model of rapidfuzz's
    `fuzz.token_sort_ratio` (token sort + normalized indel similarity) is
    provided for concrete evaluations.
-/

/-! ## Exact-rational models of the float operations used by the source -/

/-- Addition of rationals by numerator/denominator arithmetic; equal to
`a + b` but reducible by the kernel. -/
def qadd (a b : ℚ) : ℚ := mkRat (a.num * b.den + b.num * a.den) (a.den * b.den)

/-- Negation of a rational, kernel-reducible. -/
def qneg (a : ℚ) : ℚ := mkRat (-a.num) a.den

/-- Subtraction `a - b`, kernel-reducible. -/
def qsub (a b : ℚ) : ℚ := qadd a (qneg b)

/-- Multiplication of rationals, kernel-reducible. -/
def qmul (a b : ℚ) : ℚ := mkRat (a.num * b.num) (a.den * b.den)

/-- Division `a / b`, kernel-reducible (0 when `b = 0`, as in `ℚ`). -/
def qdiv (a b : ℚ) : ℚ := Rat.divInt (a.num * b.den) (a.den * b.num)

/-- Python's binary `min` on floats: the first argument on ties. -/
def qmin (a b : ℚ) : ℚ := if a ≤ b then a else b

/-- Python's `abs` on floats. -/
def qabs (a : ℚ) : ℚ := if a < 0 then qneg a else a

/-- Python's `round` to an integer: round half to even (banker's
rounding), which is what `round` does on floats. -/
def pyRoundInt (q : ℚ) : ℤ :=
  let f := Rat.floor q
  let r := qsub q (mkRat f 1)
  if r < mkRat 1 2 then f
  else if mkRat 1 2 < r then f + 1
  else if f % 2 = 0 then f else f + 1

/-- Python's `round(q, k)`: round to `k` decimal places. -/
def pyRound (k : Nat) (q : ℚ) : ℚ :=
  Rat.divInt (pyRoundInt (qmul q (mkRat ((10 : ℤ) ^ k) 1))) ((10 : ℤ) ^ k)

theorem qadd_eq (a b : ℚ) : qadd a b = a + b := by
  have ha : ((a.den : ℚ)) ≠ 0 := by exact_mod_cast a.den_nz
  have hb : ((b.den : ℚ)) ≠ 0 := by exact_mod_cast b.den_nz
  unfold qadd
  rw [Rat.mkRat_eq_div]
  have key : ((a.num : ℚ) * b.den + (b.num : ℚ) * a.den) / ((a.den : ℚ) * b.den)
      = (a.num : ℚ) / a.den + (b.num : ℚ) / b.den := by
    field_simp
  push_cast
  rw [key, Rat.num_div_den, Rat.num_div_den]

theorem qneg_eq (a : ℚ) : qneg a = -a := by
  unfold qneg
  rw [Rat.mkRat_eq_div]
  have key : ((-a.num : ℚ)) / (a.den : ℚ) = -((a.num : ℚ) / a.den) := by
    rw [neg_div]
  push_cast
  rw [key, Rat.num_div_den]

theorem qsub_eq (a b : ℚ) : qsub a b = a - b := by
  unfold qsub
  rw [qadd_eq, qneg_eq, sub_eq_add_neg]

theorem qmul_eq (a b : ℚ) : qmul a b = a * b := by
  unfold qmul
  rw [Rat.mkRat_eq_div]
  have key : ((a.num : ℚ) * b.num) / ((a.den : ℚ) * b.den)
      = ((a.num : ℚ) / a.den) * ((b.num : ℚ) / b.den) := by
    rw [div_mul_div_comm]
  push_cast
  rw [key, Rat.num_div_den, Rat.num_div_den]

theorem qdiv_eq (a b : ℚ) : qdiv a b = a / b := by
  unfold qdiv
  rw [Rat.divInt_eq_div]
  rcases eq_or_ne b 0 with rfl | hb
  · simp
  · have ha : ((a.den : ℚ)) ≠ 0 := by exact_mod_cast a.den_nz
    have hbd : ((b.den : ℚ)) ≠ 0 := by exact_mod_cast b.den_nz
    have hbn : ((b.num : ℚ)) ≠ 0 := by exact_mod_cast Rat.num_ne_zero.mpr hb
    have key : ((a.num : ℚ) * b.den) / ((a.den : ℚ) * b.num)
        = ((a.num : ℚ) / a.den) / ((b.num : ℚ) / b.den) := by
      field_simp
    push_cast
    rw [key, Rat.num_div_den, Rat.num_div_den]

theorem qmin_le_left (a b : ℚ) : qmin a b ≤ a := by
  unfold qmin
  split
  · exact le_refl a
  · exact le_of_not_le (by assumption)

/-! ## Python string primitives -/

/-- Python `str.lower()` (character-wise lowercasing). -/
def pyLower (s : String) : String := ⟨s.data.map Char.toLower⟩

/-- Characters stripped from both ends by Python `str.strip()`. -/
def stripEnds (l : List Char) : List Char :=
  ((l.dropWhile Char.isWhitespace).reverse.dropWhile Char.isWhitespace).reverse

/-- Python `str.strip()`: remove whitespace from both ends. -/
def pyStrip (s : String) : String := ⟨stripEnds s.data⟩

/-- `candidate.lower().strip()`, the normalization smart_match applies
before the exact-match comparison (fuzzy_match.py lines 218-220). -/
def pyNormalize (s : String) : String := pyStrip (pyLower s)

/-- Whitespace tokenizer: Python `str.split()` with no separator
(splits on runs of whitespace, drops empty pieces). -/
def splitTokensAux : List Char → List Char → List (List Char)
  | [], [] => []
  | [], acc => [acc.reverse]
  | c :: rest, acc =>
    if c.isWhitespace then
      match acc with
      | [] => splitTokensAux rest []
      | _ :: _ => acc.reverse :: splitTokensAux rest []
    else splitTokensAux rest (c :: acc)

/-- Python `text.split()`. -/
def pySplit (s : String) : List String := (splitTokensAux s.data []).map String.mk

/-- Python `"".join(words)`. -/
def pyJoin (l : List String) : String := ⟨(l.map String.data).flatten⟩

/-- Python `" ".join(words)`. -/
def pyJoinSpace (l : List String) : String := ⟨((l.map String.data).intersperse [' ']).flatten⟩

/-- Python `s.startswith(pre)`. -/
def pyStartsWith (s pre : String) : Bool := pre.data.isPrefixOf s.data

/-- Python `c in s` for a single-character needle. -/
def pyContainsChar (s : String) (c : Char) : Bool := s.data.contains c

/-- Python slicing `s[:n]`. -/
def pyTake (n : Nat) (s : String) : String := ⟨s.data.take n⟩

/-- Python slicing `s[n:]`. -/
def pyDrop (n : Nat) (s : String) : String := ⟨s.data.drop n⟩

/-- Python `len(s)`. -/
def pyLen (s : String) : Nat := s.data.length

/-! ## Data model: one returned match (`fuzzy_match.py` result dicts)

A match dict carries `match` (the candidate string), `confidence`, an
optional `match_type` tag ("exact" / "fuzzy" / "phonetic"; fuzzy dicts are
tagged only when stored into `all_matches`), and — for dicts built by
`find_best_matches` — a raw `score`. -/

structure MatchRec where
  matchName : String
  confidence : ℚ
  matchType : Option String
  score : Option ℚ
deriving DecidableEq

/-- Descending-confidence comparison used by the sorts in
`phonetic_match` and `smart_match` (`sort(key=..., reverse=True)`). -/
def confGE (a b : MatchRec) : Prop := b.confidence ≤ a.confidence

instance : DecidableRel confGE := fun a b => inferInstanceAs (Decidable (b.confidence ≤ a.confidence))

instance : IsTotal MatchRec confGE := ⟨fun a b => le_total b.confidence a.confidence⟩

instance : IsTrans MatchRec confGE := ⟨fun _ _ _ h1 h2 => le_trans h2 h1⟩

/-! ## Config (src/utils/config.py defaults) -/

/-- `Config.ABBREVIATIONS` (config.py lines 54-68), in dict order. -/
def ABBREVIATIONS : List (String × String) :=
  [("Mt", "Mount"), ("St", "Saint"), ("Pt", "Port"), ("Nth", "North"),
   ("Sth", "South"), ("E", "East"), ("W", "West"), ("Ck", "Creek"),
   ("Hts", "Heights"), ("Pk", "Park"), ("Jct", "Junction"),
   ("Ctr", "Centre"), ("Sq", "Square")]

/-! ## fuzzy_match.py -/

/-- One word of `expand_abbreviations`: the first abbreviation whose
key equals the word case-insensitively replaces it (lines 60-66). -/
def expandWord (w : String) : String :=
  match ABBREVIATIONS.find? (fun p => pyLower w == pyLower p.1) with
  | some p => p.2
  | none => w

/-- `expand_abbreviations` (fuzzy_match.py lines 47-68): split into
words, expand each, re-join with single spaces. -/
def expand_abbreviations (text : String) : String :=
  pyJoinSpace ((pySplit text).map expandWord)

/-- `calculate_similarity` (fuzzy_match.py lines 8-25): lowercase and
strip both strings, apply the external scorer (rapidfuzz
`fuzz.token_sort_ratio`, the `ratio` parameter, returning a score out of
100), divide by 100. -/
def calculate_similarity (ratio : String → String → ℚ) (str1 str2 : String) : ℚ :=
  qdiv (ratio (pyStrip (pyLower str1)) (pyStrip (pyLower str2))) 100

/-- `phonetic_encode` (fuzzy_match.py lines 27-45): lowercase, strip,
expand abbreviations, then the external double metaphone (`dmeta`
parameter; its `primary or "", secondary or ""` None-handling is folded
into `dmeta` returning plain strings). -/
def phonetic_encode (dmeta : String → String × String) (text : String) : String × String :=
  dmeta (expand_abbreviations (pyStrip (pyLower text)))

/-- Descending-score comparison on `(candidate, score)` pairs: the order
in which rapidfuzz `process.extract` returns its matches. -/
def scoreGE (a b : String × ℚ) : Prop := b.2 ≤ a.2

instance : DecidableRel scoreGE := fun a b => inferInstanceAs (Decidable (b.2 ≤ a.2))

instance : IsTotal (String × ℚ) scoreGE := ⟨fun a b => le_total b.2 a.2⟩

instance : IsTrans (String × ℚ) scoreGE := ⟨fun _ _ _ h1 h2 => le_trans h2 h1⟩

/-- Model of rapidfuzz `process.extract(query, candidates, scorer,
limit)`: score every candidate, order by score descending (stable, i.e.
ties keep candidate order), keep the first `limit`. -/
def processExtract (ratio : String → String → ℚ) (query : String)
    (candidates : List String) (limit : Nat) : List (String × ℚ) :=
  ((candidates.map (fun c => (c, ratio query c))).insertionSort scoreGE).take limit

/-- `find_best_matches` (fuzzy_match.py lines 70-110): expand
abbreviations in the query, extract `limit * 2` scored matches, keep
those with `score/100 ≥ threshold` as dicts with `confidence =
round(score/100, 3)` (no `match_type` yet), truncate to `limit`. -/
def find_best_matches (ratio : String → String → ℚ) (query : String)
    (candidates : List String) (threshold : ℚ) (limit : Nat) : List MatchRec :=
  let expanded_query := expand_abbreviations query
  let extracted := processExtract ratio expanded_query candidates (limit * 2)
  let results := extracted.filterMap (fun m =>
    let confidence := qdiv m.2 100
    if threshold ≤ confidence then
      some ⟨m.1, pyRound 3 confidence, none, some m.2⟩
    else none)
  results.take limit

/-- The phonetic cross-match test of `phonetic_match` (fuzzy_match.py
lines 135-139): the query's primary code is non-empty and equals the
candidate's primary or secondary code, or the query's secondary code is
non-empty and equals the candidate's primary code. -/
def codesCrossMatch (dmeta : String → String × String) (query candidate : String) : Prop :=
  let qc := phonetic_encode dmeta query
  let cc := phonetic_encode dmeta candidate
  qc.1 ≠ "" ∧ (qc.1 = cc.1 ∨ qc.1 = cc.2 ∨ (qc.2 ≠ "" ∧ qc.2 = cc.1))

instance (dmeta : String → String × String) (q c : String) :
    Decidable (codesCrossMatch dmeta q c) := by
  unfold codesCrossMatch
  infer_instance

/-- The candidate loop of `phonetic_match` (fuzzy_match.py lines
131-147), before sorting and truncation: every candidate whose codes
cross-match and whose similarity reaches `threshold * 0.7` yields a dict
with `confidence = min(0.95, similarity + 0.1)`. -/
def phoneticCandidates (ratio : String → String → ℚ) (dmeta : String → String × String)
    (query : String) (candidates : List String) (threshold : ℚ) : List MatchRec :=
  candidates.filterMap (fun candidate =>
    if codesCrossMatch dmeta query candidate then
      let similarity := calculate_similarity ratio query candidate
      if qmul threshold (mkRat 7 10) ≤ similarity then
        some ⟨candidate, qmin (mkRat 19 20) (qadd similarity (mkRat 1 10)), some "phonetic", none⟩
      else none
    else none)

/-- `phonetic_match` (fuzzy_match.py lines 112-151): the candidate loop,
then sort by confidence descending and keep `Config.MAX_SUGGESTIONS`
(the `maxSuggestions` parameter, default 5). -/
def phonetic_match (ratio : String → String → ℚ) (dmeta : String → String × String)
    (maxSuggestions : Nat) (query : String) (candidates : List String)
    (threshold : ℚ) : List MatchRec :=
  ((phoneticCandidates ratio dmeta query candidates threshold).insertionSort confGE).take
    maxSuggestions

/-- The compound prefix table of `handle_compound_words` (fuzzy_match.py
lines 179-189), with the split lengths the source hardcodes — note
`("New", 4)` stores 4 although "New" has 3 characters. -/
def compoundPatterns : List (String × Nat) :=
  [("New", 4), ("North", 5), ("South", 5), ("East", 4), ("West", 4),
   ("Upper", 5), ("Lower", 5), ("Port", 4), ("Mount", 5)]

/-- The split variant `f"{text[:length]} {text[length:]}"` appended for a
matching prefix (fuzzy_match.py line 193). -/
def splitVariant (text : String) (length : Nat) : String :=
  pyTake length text ++ " " ++ pyDrop length text

/-- `handle_compound_words` (fuzzy_match.py lines 153-195): the input,
then `"".join(words)` when there are several words, then — for exactly
two words — `words[0] + words[1]` again, then, for a space-free input of
length > 6, one split variant per matching prefix of the table
(the loop has no break; the table's prefixes are mutually non-prefixing,
so at most one matches). -/
def handle_compound_words (text : String) : List String :=
  let words := pySplit text
  let v1 : List String := [text]
  let v2 := if 1 < words.length then v1 ++ [pyJoin words] else v1
  let v3 := if words.length = 2 then
      v2 ++ [words.getD 0 "" ++ words.getD 1 ""]
    else v2
  if 6 < pyLen text ∧ pyContainsChar text ' ' = false then
    v3 ++ compoundPatterns.filterMap (fun p =>
      if pyStartsWith (pyLower text) (pyLower p.1) then some (splitVariant text p.2)
      else none)
  else v3

/-! ## Insertion-ordered dictionaries (Python `dict`) -/

/-- Python dict lookup over an insertion-ordered association list. -/
def dictLookup {κ ν : Type} [DecidableEq κ] : List (κ × ν) → κ → Option ν
  | [], _ => none
  | (k, v) :: rest, key => if k = key then some v else dictLookup rest key

/-- Python dict assignment `d[key] = value`: replace in place when the
key is present (a Python dict keeps the key's insertion position),
append otherwise. -/
def dictSet {κ ν : Type} [DecidableEq κ] : List (κ × ν) → κ → ν → List (κ × ν)
  | [], key, value => [(key, value)]
  | (k, v) :: rest, key, value =>
    if k = key then (k, value) :: rest else (k, v) :: dictSet rest key value

/-- In-place modification of the value stored at a key. -/
def dictModify {κ ν : Type} [DecidableEq κ] : List (κ × ν) → κ → (ν → ν) → List (κ × ν)
  | [], _, _ => []
  | (k, v) :: rest, key, f =>
    if k = key then (k, f v) :: rest else (k, v) :: dictModify rest key f

/-! ## smart_match -/

/-- The `all_matches` insertion step of `smart_match` (fuzzy_match.py
lines 238-242 and 251-254): store the match under its name when the name
is absent, or when the new confidence is strictly higher than the stored
one (ties keep the stored match). -/
def considerInsert (d : List (String × MatchRec)) (m : MatchRec) : List (String × MatchRec) :=
  match dictLookup d m.matchName with
  | none => dictSet d m.matchName m
  | some old => if old.confidence < m.confidence then dictSet d m.matchName m else d

/-- The stream of match dicts the variant loop of `smart_match`
(fuzzy_match.py lines 230-254) produces and offers to `all_matches`, in
production order: for each compound-word variant, the fuzzy matches
(tagged "fuzzy"; the source sets the tag at insertion time, which stores
this same record) and then the phonetic matches. -/
def producedMatches (ratio : String → String → ℚ) (dmeta : String → String × String)
    (fuzzyThreshold phoneticThreshold : ℚ) (maxSuggestions : Nat)
    (enableFuzzy enablePhonetic useFuzzy usePhonetic : Bool)
    (query : String) (candidates : List String) : List MatchRec :=
  (handle_compound_words query).flatMap (fun variant =>
    (if useFuzzy && enableFuzzy then
        (find_best_matches ratio variant candidates fuzzyThreshold 5).map
          (fun m => { m with matchType := some "fuzzy" })
      else [])
    ++ (if usePhonetic && enablePhonetic then
        phonetic_match ratio dmeta maxSuggestions variant candidates phoneticThreshold
      else []))

/-- `smart_match` (fuzzy_match.py lines 197-260): exact short-circuit on
the first normalized-equal candidate, otherwise fold the produced match
stream into `all_matches`, sort the values by confidence descending and
keep `Config.MAX_SUGGESTIONS`.  `fuzzyThreshold` / `phoneticThreshold` /
`maxSuggestions` model `Config.FUZZY_THRESHOLD` /
`Config.PHONETIC_THRESHOLD` / `Config.MAX_SUGGESTIONS`;
`enableFuzzy` / `enablePhonetic` the feature flags; `useFuzzy` /
`usePhonetic` the keyword arguments. -/
def smart_match (ratio : String → String → ℚ) (dmeta : String → String × String)
    (fuzzyThreshold phoneticThreshold : ℚ) (maxSuggestions : Nat)
    (enableFuzzy enablePhonetic useFuzzy usePhonetic : Bool)
    (query : String) (candidates : List String) : List MatchRec :=
  match candidates.find? (fun c => pyNormalize c == pyNormalize query) with
  | some candidate => [⟨candidate, 1, some "exact", none⟩]
  | none =>
    let all_matches := (producedMatches ratio dmeta fuzzyThreshold phoneticThreshold
        maxSuggestions enableFuzzy enablePhonetic useFuzzy usePhonetic
        query candidates).foldl considerInsert []
    ((all_matches.map Prod.snd).insertionSort confGE).take maxSuggestions

/-! ## A concrete executable model of rapidfuzz `fuzz.token_sort_ratio`

Used to instantiate the `ratio` parameter in concrete evaluations.
`fuzz.ratio` is the normalized indel similarity
`100 · (1 − indel(s1,s2)/(|s1|+|s2|)) = 100 · 2·lcs(s1,s2)/(|s1|+|s2|)`;
`token_sort_ratio` applies it after sorting each string's
whitespace-delimited tokens. -/

/-- One inner step of the longest-common-subsequence DP: extend the new
row along `bs`, given the tail of the previous row, the north-west value
`nw` and the west value `w`. -/
def lcsAux (x : Char) : List Char → List Nat → Nat → Nat → List Nat
  | [], _, _, _ => []
  | _ :: _, [], _, _ => []
  | b :: bs, pj :: ps, nw, w =>
    let v := if x = b then nw + 1 else max w pj
    v :: lcsAux x bs ps pj v

/-- One row step of the LCS DP: from the previous row compute the row
after consuming the character `x`. -/
def lcsRowStep (bs : List Char) (row : List Nat) (x : Char) : List Nat :=
  0 :: lcsAux x bs row.tail (row.headD 0) 0

/-- Length of the longest common subsequence, by dynamic programming
(kernel-reducible, unlike the naive exponential recursion). -/
def lcsLength (a b : List Char) : Nat :=
  (a.foldl (lcsRowStep b) (List.replicate (b.length + 1) 0)).getLastD 0

/-- Model of rapidfuzz `fuzz.ratio`: normalized indel similarity scaled
to 0–100 (100 for two empty strings, as rapidfuzz returns). -/
def fuzzRatio (s1 s2 : String) : ℚ :=
  let la := s1.data.length
  let lb := s2.data.length
  if la + lb = 0 then 100
  else mkRat ((100 * (2 * lcsLength s1.data s2.data) : Nat) : Int) (la + lb)

/-- Code-point lexicographic order on strings (Python string `<=`),
kernel-reducible. -/
def lexLe : List Char → List Char → Bool
  | [], _ => true
  | _ :: _, [] => false
  | a :: as, b :: bs =>
    if a.val < b.val then true
    else if b.val < a.val then false
    else lexLe as bs

/-- The order `sorted` uses on tokens. -/
def strLe (a b : String) : Prop := lexLe a.data b.data = true

instance : DecidableRel strLe := fun x y => inferInstanceAs (Decidable (lexLe x.data y.data = true))

/-- Model of rapidfuzz `fuzz.token_sort_ratio`: sort each string's
whitespace tokens, re-join with single spaces, apply `fuzz.ratio`. -/
def token_sort_ratio (s1 s2 : String) : ℚ :=
  fuzzRatio (pyJoinSpace ((pySplit s1).insertionSort strLe))
    (pyJoinSpace ((pySplit s2).insertionSort strLe))

/-! ## database.py: search_by_radius -/

/-- One row of the `postcodes` table as selected by `search_by_radius`
(database.py lines 237-239); the columns the claims do not touch
(`region`, `electoral_division`) are folded into `lga_name`-style
optional text and omitted. -/
structure DbRow where
  postcode : String
  locality : String
  state : String
  latitude : Option ℚ
  longitude : Option ℚ
  lga_name : Option String
deriving DecidableEq

/-- Ascending comparison on the computed distance (`ORDER BY
distance_km`, database.py line 253). -/
def rowDistLE (a b : DbRow × ℚ) : Prop := a.2 ≤ b.2

instance : DecidableRel rowDistLE := fun a b => inferInstanceAs (Decidable (a.2 ≤ b.2))

instance : IsTotal (DbRow × ℚ) rowDistLE := ⟨fun a b => le_total a.2 b.2⟩

instance : IsTrans (DbRow × ℚ) rowDistLE := ⟨fun _ _ _ h1 h2 => le_trans h1 h2⟩

/-- `Database.search_by_radius` (database.py lines 225-275) over an
explicit row list.  `dist lat lon la lo` is a parameter modelling the
SQL great-circle distance expression (lines 240-246; acos/cos/sin are
transcendental and cannot be evaluated exactly).  The model reproduces
the unguarded `lon_range = radius_km / (111.0 * abs(lat))` of line 234:
Python raises `ZeroDivisionError` when the divisor is zero (exactly when
`lat = 0` over exact rationals), modelled as `Except.error`.  `SELECT
DISTINCT` drops no row because the table's `UNIQUE(postcode, locality,
state)` constraint already makes the selected tuples distinct. -/
def search_by_radius (dist : ℚ → ℚ → ℚ → ℚ → ℚ) (rows : List DbRow)
    (lat lon radius_km : ℚ) : Except String (List (DbRow × ℚ)) :=
  if qmul 111 (qabs lat) = 0 then
    Except.error "ZeroDivisionError: float division by zero"
  else
    let lat_range := qdiv radius_km 111
    let lon_range := qdiv radius_km (qmul 111 (qabs lat))
    let boxed := rows.filter (fun r =>
      match r.latitude, r.longitude with
      | some la, some lo =>
          decide (qsub lat lat_range ≤ la ∧ la ≤ qadd lat lat_range
            ∧ qsub lon lon_range ≤ lo ∧ lo ≤ qadd lon lon_range)
      | _, _ => false)
    let withDist := boxed.map (fun r =>
      (r, dist lat lon (r.latitude.getD 0) (r.longitude.getD 0)))
    let within := withDist.filter (fun p => decide (p.2 ≤ radius_km))
    Except.ok ((within.insertionSort rowDistLE).map (fun p => (p.1, pyRound 2 p.2)))

/-! ## location_tools.py: the grouping stage of list_suburbs_in_radius -/

/-- One result dict consumed by the grouping loop of
`list_suburbs_in_radius` (location_tools.py lines 277-291): a row of the
`search_by_radius` output (which always carries `distance_km`, so the
`.get('distance_km', 0)` default never fires). -/
structure RadiusRow where
  locality : String
  state : String
  postcode : String
  distance_km : ℚ
  lga_name : Option String
deriving DecidableEq

/-- The per-suburb accumulator value (location_tools.py lines 281-287). -/
structure SuburbGroup where
  suburb : String
  state : String
  postcodes : Finset String
  distance_km : ℚ
  lga_name : Option String
deriving DecidableEq

/-- One iteration of the grouping loop (location_tools.py lines
278-291): create the entry on first sight of the `(locality, state)`
key, add the row's postcode to the set, keep the minimum distance. -/
def groupStep (d : List ((String × String) × SuburbGroup)) (r : RadiusRow) :
    List ((String × String) × SuburbGroup) :=
  let key := (r.locality, r.state)
  let d1 := match dictLookup d key with
    | none => d ++ [(key, ⟨r.locality, r.state, ∅, r.distance_km, r.lga_name⟩)]
    | some _ => d
  dictModify d1 key (fun g =>
    { g with
      postcodes := insert r.postcode g.postcodes,
      distance_km := if r.distance_km < g.distance_km then r.distance_km else g.distance_km })

/-- One entry of the returned `suburbs` list (location_tools.py lines
294-302): `distance_km` rounded to 1 decimal place; `postcodes` stays a
set here (the source renders it as `sorted(list(...))` for output). -/
structure NearbyEntry where
  suburb : String
  state : String
  postcodes : Finset String
  distance_km : ℚ
  lga_name : Option String
deriving DecidableEq

/-- Conversion of an accumulated group into a response entry
(location_tools.py lines 296-302). -/
def toNearbyEntry (g : SuburbGroup) : NearbyEntry :=
  ⟨g.suburb, g.state, g.postcodes, pyRound 1 g.distance_km, g.lga_name⟩

/-- Ascending comparison on the (rounded) distance field
(location_tools.py line 305). -/
def entryDistLE (a b : NearbyEntry) : Prop := a.distance_km ≤ b.distance_km

instance : DecidableRel entryDistLE :=
  fun a b => inferInstanceAs (Decidable (a.distance_km ≤ b.distance_km))

instance : IsTotal NearbyEntry entryDistLE := ⟨fun a b => le_total a.distance_km b.distance_km⟩

instance : IsTrans NearbyEntry entryDistLE := ⟨fun _ _ _ h1 h2 => le_trans h1 h2⟩

/-- The grouping-and-ranking stage of `list_suburbs_in_radius`
(location_tools.py lines 276-305), over an arbitrary list of radius-query
rows: group by `(locality, state)`, convert, sort by distance ascending
(Python's stable sort). -/
def nearby_suburbs (rows : List RadiusRow) : List NearbyEntry :=
  ((rows.foldl groupStep []).map (fun e => toNearbyEntry e.2)).insertionSort entryDistLE

/-- The rows whose `(locality, state)` key equals `k`: one group. -/
def groupOf (rows : List RadiusRow) (k : String × String) : List RadiusRow :=
  rows.filter (fun r => (r.locality, r.state) == k)

/-- Outcome of the radius validation at the head of
`list_suburbs_in_radius` (location_tools.py lines 209-214). -/
inductive RadiusCheck (α : Type) where
  | invalidRadius : RadiusCheck α
  | proceed : α → RadiusCheck α
deriving DecidableEq

/-- The radius validation of `list_suburbs_in_radius` (location_tools.py
lines 209-214): `if radius_km <= 0 or radius_km > 500` return the
invalid-radius error before any database access; `rest` stands for
everything after the validation (the centre lookup and the search) and
is untouched in the reject branch. -/
def list_suburbs_in_radius_check {α : Type} (radius_km : ℚ) (rest : α) : RadiusCheck α :=
  if radius_km ≤ 0 ∨ 500 < radius_km then RadiusCheck.invalidRadius
  else RadiusCheck.proceed rest

/-! ## Prop-level helpers used by the claim statements -/

/-- `m` is the first element of `l` attaining `l`'s maximal confidence:
everything before it is strictly lower, everything after it no higher.
This is exactly which candidate the `all_matches` replacement policy
(strictly-higher replaces, ties keep the stored one) retains. -/
def IsFirstMax (l : List MatchRec) (m : MatchRec) : Prop :=
  ∃ l1 l2, l = l1 ++ m :: l2
    ∧ (∀ x ∈ l1, x.confidence < m.confidence)
    ∧ (∀ x ∈ l2, x.confidence ≤ m.confidence)

/-- A scorer that gives every pair 100: models the external scorer on a
pool of identical-sounding candidates. -/
def ratioConst100 : String → String → ℚ := fun _ _ => 100

/-- A double-metaphone stub under which every string has the same
primary code (doublemetaphone is deterministic, so equal inputs always
share codes; this models a pool of phonetically identical names). -/
def metaConstTST : String → String × String := fun _ => ("TST", "")

/-- A double-metaphone stub producing only empty codes (no phonetic
matches fire). -/
def metaEmpty : String → String × String := fun _ => ("", "")

/-- The two-row input of the distance-rounding counterexample: one
suburb, two postcode rows at 5.24 km and 7.3 km. -/
def cexRows : List RadiusRow :=
  [⟨"Bondi", "NSW", "2026", mkRat 524 100, none⟩,
   ⟨"Bondi", "NSW", "2027", mkRat 73 10, none⟩]

/-- The invariant the `all_matches` fold maintains: keys are distinct,
every entry is keyed by its record's name and holds the first maximal
record of the produced stream for that name, and the key set is exactly
the set of produced names. -/
def dictInv (S : List MatchRec) (d : List (String × MatchRec)) : Prop :=
  (d.map Prod.fst).Nodup
  ∧ (∀ e ∈ d, e.1 = e.2.matchName
      ∧ IsFirstMax (S.filter (fun x => x.matchName == e.1)) e.2)
  ∧ (∀ k, k ∈ d.map Prod.fst ↔ k ∈ S.map (fun x => x.matchName))

/-- The invariant the suburb-grouping fold maintains: keys are distinct,
every entry carries its key's suburb and state, the union of its group's
postcodes and the minimum of its group's distances, and the key set is
exactly the set of row keys. -/
def groupInv (rows : List RadiusRow) (d : List ((String × String) × SuburbGroup)) : Prop :=
  (d.map Prod.fst).Nodup
  ∧ (∀ e ∈ d, e.2.suburb = e.1.1 ∧ e.2.state = e.1.2
      ∧ e.2.postcodes = ((groupOf rows e.1).map (fun r => r.postcode)).toFinset
      ∧ e.2.distance_km ∈ (groupOf rows e.1).map (fun r => r.distance_km)
      ∧ ∀ x ∈ (groupOf rows e.1).map (fun r => r.distance_km), e.2.distance_km ≤ x)
  ∧ (∀ k, k ∈ d.map Prod.fst ↔ k ∈ rows.map (fun r => (r.locality, r.state)))

/-! ## Generic dictionary lemmas -/

theorem dictLookup_none_iff {κ ν : Type} [DecidableEq κ] (d : List (κ × ν)) (key : κ) :
    dictLookup d key = none ↔ ∀ e ∈ d, e.1 ≠ key := by
  induction d with
  | nil => simp [dictLookup]
  | cons hd tl ih =>
    obtain ⟨k, v⟩ := hd
    by_cases hk : k = key
    · constructor
      · intro h
        rw [dictLookup, if_pos hk] at h
        exact absurd h (by simp)
      · intro h
        exact absurd hk (h (k, v) (List.mem_cons_self _ _))
    · rw [dictLookup, if_neg hk, ih]
      constructor
      · intro h e he
        rcases List.mem_cons.mp he with rfl | he
        · exact hk
        · exact h e he
      · intro h e he
        exact h e (List.mem_cons_of_mem _ he)

theorem dictLookup_some_mem {κ ν : Type} [DecidableEq κ] {d : List (κ × ν)} {key : κ}
    {v : ν} (h : dictLookup d key = some v) : (key, v) ∈ d := by
  induction d with
  | nil => exact absurd h (by simp [dictLookup])
  | cons hd tl ih =>
    obtain ⟨k, w⟩ := hd
    by_cases hk : k = key
    · rw [dictLookup, if_pos hk] at h
      rw [Option.some_inj] at h
      rw [← hk, ← h]
      exact List.mem_cons_self _ _
    · rw [dictLookup, if_neg hk] at h
      exact List.mem_cons_of_mem _ (ih h)

theorem dictLookup_of_mem_nodup {κ ν : Type} [DecidableEq κ] {d : List (κ × ν)}
    (hn : (d.map Prod.fst).Nodup) {e : κ × ν} (he : e ∈ d) :
    dictLookup d e.1 = some e.2 := by
  induction d with
  | nil => exact absurd he (by simp)
  | cons hd tl ih =>
    obtain ⟨k, w⟩ := hd
    rw [List.map_cons, List.nodup_cons] at hn
    rcases List.mem_cons.mp he with rfl | he
    · rw [dictLookup, if_pos rfl]
    · have hk : k ≠ e.1 := by
        intro hk
        apply hn.1
        show k ∈ List.map Prod.fst tl
        rw [hk]
        exact List.mem_map.mpr ⟨e, he, rfl⟩
      rw [dictLookup, if_neg hk]
      exact ih hn.2 he

theorem dictSet_of_lookup_none {κ ν : Type} [DecidableEq κ] {d : List (κ × ν)} {key : κ}
    (v : ν) (h : dictLookup d key = none) : dictSet d key v = d ++ [(key, v)] := by
  induction d with
  | nil => rfl
  | cons hd tl ih =>
    obtain ⟨k, w⟩ := hd
    have hk : k ≠ key := ((dictLookup_none_iff _ _).mp h) (k, w) (List.mem_cons_self _ _)
    rw [dictLookup, if_neg hk] at h
    rw [dictSet, if_neg hk, List.cons_append, ih h]

theorem dictSet_map_fst_of_lookup_some {κ ν : Type} [DecidableEq κ] {d : List (κ × ν)}
    {key : κ} {w : ν} (v : ν) (h : dictLookup d key = some w) :
    (dictSet d key v).map Prod.fst = d.map Prod.fst := by
  induction d with
  | nil => exact absurd h (by simp [dictLookup])
  | cons hd tl ih =>
    obtain ⟨k, u⟩ := hd
    by_cases hk : k = key
    · rw [dictSet, if_pos hk]
      simp
    · rw [dictLookup, if_neg hk] at h
      rw [dictSet, if_neg hk, List.map_cons, List.map_cons, ih h]

theorem mem_dictSet_of_lookup_some {κ ν : Type} [DecidableEq κ] {d : List (κ × ν)}
    {key : κ} {w : ν} (v : ν) (hn : (d.map Prod.fst).Nodup)
    (h : dictLookup d key = some w) (e : κ × ν) :
    e ∈ dictSet d key v ↔ (e ∈ d ∧ e.1 ≠ key) ∨ e = (key, v) := by
  induction d with
  | nil => exact absurd h (by simp [dictLookup])
  | cons hd tl ih =>
    obtain ⟨k, u⟩ := hd
    rw [List.map_cons, List.nodup_cons] at hn
    by_cases hk : k = key
    · rw [dictSet, if_pos hk]
      subst hk
      constructor
      · intro hmem
        rcases List.mem_cons.mp hmem with rfl | hmem
        · exact Or.inr rfl
        · refine Or.inl ⟨List.mem_cons_of_mem _ hmem, ?_⟩
          intro h1
          apply hn.1
          show k ∈ List.map Prod.fst tl
          rw [← h1]
          exact List.mem_map.mpr ⟨e, hmem, rfl⟩
      · intro hmem
        rcases hmem with ⟨hmem, hne⟩ | rfl
        · rcases List.mem_cons.mp hmem with rfl | hmem
          · exact absurd rfl hne
          · exact List.mem_cons_of_mem _ hmem
        · exact List.mem_cons_self _ _
    · rw [dictLookup, if_neg hk] at h
      rw [dictSet, if_neg hk]
      constructor
      · intro hmem
        rcases List.mem_cons.mp hmem with rfl | hmem
        · exact Or.inl ⟨List.mem_cons_self _ _, hk⟩
        · rcases (ih hn.2 h).mp hmem with ⟨hm, hne⟩ | rfl
          · exact Or.inl ⟨List.mem_cons_of_mem _ hm, hne⟩
          · exact Or.inr rfl
      · intro hmem
        rcases hmem with ⟨hmem, hne⟩ | rfl
        · rcases List.mem_cons.mp hmem with rfl | hmem
          · exact List.mem_cons_self _ _
          · exact List.mem_cons_of_mem _ ((ih hn.2 h).mpr (Or.inl ⟨hmem, hne⟩))
        · exact List.mem_cons_of_mem _ ((ih hn.2 h).mpr (Or.inr rfl))

theorem dictModify_map_fst {κ ν : Type} [DecidableEq κ] (d : List (κ × ν)) (key : κ)
    (f : ν → ν) : (dictModify d key f).map Prod.fst = d.map Prod.fst := by
  induction d with
  | nil => rfl
  | cons hd tl ih =>
    obtain ⟨k, u⟩ := hd
    by_cases hk : k = key
    · rw [dictModify, if_pos hk]
      simp
    · rw [dictModify, if_neg hk, List.map_cons, List.map_cons, ih]

theorem mem_dictModify_of_lookup_some {κ ν : Type} [DecidableEq κ] {d : List (κ × ν)}
    {key : κ} {w : ν} (f : ν → ν) (hn : (d.map Prod.fst).Nodup)
    (h : dictLookup d key = some w) (e : κ × ν) :
    e ∈ dictModify d key f ↔ (e ∈ d ∧ e.1 ≠ key) ∨ e = (key, f w) := by
  induction d with
  | nil => exact absurd h (by simp [dictLookup])
  | cons hd tl ih =>
    obtain ⟨k, u⟩ := hd
    rw [List.map_cons, List.nodup_cons] at hn
    by_cases hk : k = key
    · rw [dictLookup, if_pos hk, Option.some_inj] at h
      rw [dictModify, if_pos hk]
      subst hk
      subst h
      constructor
      · intro hmem
        rcases List.mem_cons.mp hmem with rfl | hmem
        · exact Or.inr rfl
        · refine Or.inl ⟨List.mem_cons_of_mem _ hmem, ?_⟩
          intro h1
          apply hn.1
          show k ∈ List.map Prod.fst tl
          rw [← h1]
          exact List.mem_map.mpr ⟨e, hmem, rfl⟩
      · intro hmem
        rcases hmem with ⟨hmem, hne⟩ | rfl
        · rcases List.mem_cons.mp hmem with rfl | hmem
          · exact absurd rfl hne
          · exact List.mem_cons_of_mem _ hmem
        · exact List.mem_cons_self _ _
    · rw [dictLookup, if_neg hk] at h
      rw [dictModify, if_neg hk]
      constructor
      · intro hmem
        rcases List.mem_cons.mp hmem with rfl | hmem
        · exact Or.inl ⟨List.mem_cons_self _ _, hk⟩
        · rcases (ih hn.2 h).mp hmem with ⟨hm, hne⟩ | rfl
          · exact Or.inl ⟨List.mem_cons_of_mem _ hm, hne⟩
          · exact Or.inr rfl
      · intro hmem
        rcases hmem with ⟨hmem, hne⟩ | rfl
        · rcases List.mem_cons.mp hmem with rfl | hmem
          · exact List.mem_cons_self _ _
          · exact List.mem_cons_of_mem _ ((ih hn.2 h).mpr (Or.inl ⟨hmem, hne⟩))
        · exact List.mem_cons_of_mem _ ((ih hn.2 h).mpr (Or.inr rfl))

theorem dictModify_append_of_lookup_none {κ ν : Type} [DecidableEq κ] {d : List (κ × ν)}
    {key : κ} (g : ν) (f : ν → ν) (h : dictLookup d key = none) :
    dictModify (d ++ [(key, g)]) key f = d ++ [(key, f g)] := by
  induction d with
  | nil =>
    rw [List.nil_append, List.nil_append]
    rw [dictModify, if_pos rfl]
  | cons hd tl ih =>
    obtain ⟨k, w⟩ := hd
    have hk : k ≠ key := ((dictLookup_none_iff _ _).mp h) (k, w) (List.mem_cons_self _ _)
    rw [dictLookup, if_neg hk] at h
    rw [List.cons_append, dictModify, if_neg hk, List.cons_append, ih h]

/-! ## The all_matches fold invariant -/

theorem filter_singleton_name_eq (m : MatchRec) {key : String} (h : m.matchName = key) :
    [m].filter (fun x => x.matchName == key) = [m] := by
  simp [List.filter, h]

theorem filter_singleton_name_ne (m : MatchRec) {key : String} (h : m.matchName ≠ key) :
    [m].filter (fun x => x.matchName == key) = [] := by
  have hb : (m.matchName == key) = false := beq_eq_false_iff_ne.mpr h
  simp [List.filter, hb]

theorem foldl_considerInsert_inv (S : List MatchRec) :
    dictInv S (S.foldl considerInsert []) := by
  induction S using List.reverseRecOn with
  | nil =>
    refine ⟨List.nodup_nil, ?_, ?_⟩
    · intro e he
      exact absurd he (by simp)
    · intro k
      simp
  | append_singleton T m ih =>
    rw [List.foldl_append]
    simp only [List.foldl_cons, List.foldl_nil]
    obtain ⟨ih1, ih2, ih3⟩ := ih
    rcases hlook : dictLookup (T.foldl considerInsert []) m.matchName with _ | old
    · -- the name is new: the entry is appended
      have hset : considerInsert (T.foldl considerInsert []) m
          = T.foldl considerInsert [] ++ [(m.matchName, m)] := by
        simp only [considerInsert, hlook]
        exact dictSet_of_lookup_none _ hlook
      have hknot : ∀ e ∈ T.foldl considerInsert [], e.1 ≠ m.matchName :=
        (dictLookup_none_iff _ _).mp hlook
      have hmnotT : m.matchName ∉ T.map (fun x => x.matchName) := by
        intro hmem
        obtain ⟨e, he, hek⟩ := List.mem_map.mp ((ih3 _).mpr hmem)
        exact hknot e he hek
      refine ⟨?_, ?_, ?_⟩
      · rw [hset, List.map_append, List.nodup_append]
        refine ⟨ih1, List.nodup_singleton _, ?_⟩
        intro a ha hb
        obtain ⟨e, he, hek⟩ := List.mem_map.mp ha
        have : a = m.matchName := by simpa using hb
        exact hknot e he (hek.trans this)
      · intro e he
        rw [hset] at he
        rcases List.mem_append.mp he with he | he
        · obtain ⟨hek, hfm⟩ := ih2 e he
          have hne : m.matchName ≠ e.1 := fun h => hknot e he h.symm
          refine ⟨hek, ?_⟩
          rw [List.filter_append, filter_singleton_name_ne m hne, List.append_nil]
          exact hfm
        · have he' : e = (m.matchName, m) := by simpa using he
          subst he'
          refine ⟨rfl, ?_⟩
          have h1 : T.filter (fun x => x.matchName == m.matchName) = [] := by
            rw [List.filter_eq_nil_iff]
            intro x hx hbeq
            exact hmnotT (List.mem_map.mpr ⟨x, hx, by simpa using hbeq⟩)
          rw [List.filter_append, filter_singleton_name_eq m rfl, h1, List.nil_append]
          exact ⟨[], [], rfl, by simp, by simp⟩
      · intro k
        rw [hset, List.map_append, List.map_append, List.mem_append, List.mem_append, ih3]
        simp
    · by_cases hcmp : old.confidence < m.confidence
      · -- strictly higher confidence: replace in place
        have hset : considerInsert (T.foldl considerInsert []) m
            = dictSet (T.foldl considerInsert []) m.matchName m := by
          simp only [considerInsert, hlook]
          rw [if_pos hcmp]
        have hmem_old : (m.matchName, old) ∈ T.foldl considerInsert [] :=
          dictLookup_some_mem hlook
        have hkey_mem : m.matchName ∈ (T.foldl considerInsert []).map Prod.fst :=
          List.mem_map.mpr ⟨_, hmem_old, rfl⟩
        obtain ⟨-, hfm_old⟩ := ih2 _ hmem_old
        refine ⟨?_, ?_, ?_⟩
        · rw [hset, dictSet_map_fst_of_lookup_some _ hlook]
          exact ih1
        · intro e he
          rw [hset] at he
          rcases (mem_dictSet_of_lookup_some _ ih1 hlook e).mp he with ⟨hed, hne⟩ | rfl
          · obtain ⟨hek, hfm⟩ := ih2 e hed
            have hne2 : m.matchName ≠ e.1 := fun h => hne (h.symm)
            refine ⟨hek, ?_⟩
            rw [List.filter_append, filter_singleton_name_ne m hne2, List.append_nil]
            exact hfm
          · refine ⟨rfl, ?_⟩
            rw [List.filter_append, filter_singleton_name_eq m rfl]
            obtain ⟨l1, l2, hsplit, hl1, hl2⟩ := hfm_old
            refine ⟨l1 ++ old :: l2, [], ?_, ?_, ?_⟩
            · rw [hsplit]
            · intro x hx
              rcases List.mem_append.mp hx with hx | hx
              · exact lt_trans (hl1 x hx) hcmp
              · rcases List.mem_cons.mp hx with rfl | hx
                · exact hcmp
                · exact lt_of_le_of_lt (hl2 x hx) hcmp
            · intro x hx
              exact absurd hx (by simp)
        · intro k
          rw [hset, dictSet_map_fst_of_lookup_some _ hlook, List.map_append, List.mem_append]
          constructor
          · intro h
            exact Or.inl ((ih3 k).mp h)
          · rintro (h | h)
            · exact (ih3 k).mpr h
            · have : k = m.matchName := by simpa using h
              rw [this]
              exact hkey_mem
      · -- not strictly higher: the stored record stays
        have hset : considerInsert (T.foldl considerInsert []) m
            = T.foldl considerInsert [] := by
          simp only [considerInsert, hlook]
          rw [if_neg hcmp]
        have hmem_old : (m.matchName, old) ∈ T.foldl considerInsert [] :=
          dictLookup_some_mem hlook
        have hkey_mem : m.matchName ∈ (T.foldl considerInsert []).map Prod.fst :=
          List.mem_map.mpr ⟨_, hmem_old, rfl⟩
        rw [hset]
        refine ⟨ih1, ?_, ?_⟩
        · intro e he
          obtain ⟨hek, hfm⟩ := ih2 e he
          by_cases hke : m.matchName = e.1
          · have hl : dictLookup (T.foldl considerInsert []) e.1 = some e.2 :=
              dictLookup_of_mem_nodup ih1 he
            rw [← hke, hlook] at hl
            have heold : e.2 = old := (Option.some_inj.mp hl).symm
            refine ⟨hek, ?_⟩
            rw [List.filter_append, filter_singleton_name_eq m hke]
            obtain ⟨l1, l2, hsplit, hl1, hl2⟩ := hfm
            refine ⟨l1, l2 ++ [m], ?_, hl1, ?_⟩
            · rw [hsplit, List.append_assoc, List.cons_append]
            · intro x hx
              rcases List.mem_append.mp hx with hx | hx
              · exact hl2 x hx
              · have : x = m := by simpa using hx
                rw [this, heold]
                exact le_of_not_lt hcmp
          · refine ⟨hek, ?_⟩
            rw [List.filter_append, filter_singleton_name_ne m hke, List.append_nil]
            exact hfm
        · intro k
          rw [List.map_append, List.mem_append]
          constructor
          · intro h
            exact Or.inl ((ih3 k).mp h)
          · rintro (h | h)
            · exact (ih3 k).mpr h
            · have : k = m.matchName := by simpa using h
              rw [this]
              exact hkey_mem

/-! ## The suburb-grouping fold invariant -/

theorem groupOf_append_eq (T : List RadiusRow) (r : RadiusRow) {k : String × String}
    (h : (r.locality, r.state) = k) : groupOf (T ++ [r]) k = groupOf T k ++ [r] := by
  unfold groupOf
  rw [List.filter_append]
  congr 1
  have hb : ((r.locality, r.state) == k) = true := beq_iff_eq.mpr h
  simp [List.filter, hb]

theorem groupOf_append_ne (T : List RadiusRow) (r : RadiusRow) {k : String × String}
    (h : (r.locality, r.state) ≠ k) : groupOf (T ++ [r]) k = groupOf T k := by
  unfold groupOf
  rw [List.filter_append]
  have hb : ((r.locality, r.state) == k) = false := beq_eq_false_iff_ne.mpr h
  simp [List.filter, hb]

theorem foldl_groupStep_inv (rows : List RadiusRow) :
    groupInv rows (rows.foldl groupStep []) := by
  induction rows using List.reverseRecOn with
  | nil =>
    refine ⟨List.nodup_nil, ?_, ?_⟩
    · intro e he
      exact absurd he (by simp)
    · intro k
      simp
  | append_singleton T r ih =>
    rw [List.foldl_append]
    simp only [List.foldl_cons, List.foldl_nil]
    obtain ⟨ih1, ih2, ih3⟩ := ih
    rcases hlook : dictLookup (T.foldl groupStep []) (r.locality, r.state) with _ | g
    · -- the key is new: a fresh entry is appended then immediately updated
      have hset : groupStep (T.foldl groupStep []) r
          = T.foldl groupStep []
            ++ [((r.locality, r.state),
                 ⟨r.locality, r.state, {r.postcode}, r.distance_km, r.lga_name⟩)] := by
        simp only [groupStep, hlook]
        rw [dictModify_append_of_lookup_none _ _ hlook]
        have hd : (if r.distance_km < r.distance_km then r.distance_km else r.distance_km)
            = r.distance_km := by
          rw [if_neg (lt_irrefl _)]
        simp [hd]
      have hknot : ∀ e ∈ T.foldl groupStep [], e.1 ≠ (r.locality, r.state) :=
        (dictLookup_none_iff _ _).mp hlook
      have hmnotT : (r.locality, r.state) ∉ T.map (fun x => (x.locality, x.state)) := by
        intro hmem
        obtain ⟨e, he, hek⟩ := List.mem_map.mp ((ih3 _).mpr hmem)
        exact hknot e he hek
      have hTempty : groupOf T (r.locality, r.state) = [] := by
        unfold groupOf
        rw [List.filter_eq_nil_iff]
        intro x hx hbeq
        exact hmnotT (List.mem_map.mpr ⟨x, hx, by simpa using hbeq⟩)
      refine ⟨?_, ?_, ?_⟩
      · rw [hset, List.map_append, List.nodup_append]
        refine ⟨ih1, List.nodup_singleton _, ?_⟩
        intro a ha hb
        obtain ⟨e, he, hek⟩ := List.mem_map.mp ha
        have : a = (r.locality, r.state) := by simpa using hb
        exact hknot e he (hek.trans this)
      · intro e he
        rw [hset] at he
        rcases List.mem_append.mp he with he | he
        · obtain ⟨h1, h2, h3, h4, h5⟩ := ih2 e he
          have hne : (r.locality, r.state) ≠ e.1 := fun h => hknot e he h.symm
          rw [groupOf_append_ne T r hne]
          exact ⟨h1, h2, h3, h4, h5⟩
        · have he' : e = ((r.locality, r.state),
              ⟨r.locality, r.state, {r.postcode}, r.distance_km, r.lga_name⟩) := by
            simpa using he
          subst he'
          rw [groupOf_append_eq T r rfl, hTempty, List.nil_append]
          refine ⟨rfl, rfl, by simp, by simp, ?_⟩
          intro x hx
          have : x = r.distance_km := by simpa using hx
          rw [this]
      · intro k
        rw [hset, List.map_append, List.map_append, List.mem_append, List.mem_append, ih3]
        simp
    · -- the key exists: the stored group is updated in place
      have hset : groupStep (T.foldl groupStep []) r
          = dictModify (T.foldl groupStep []) (r.locality, r.state)
              (fun g =>
                { g with
                  postcodes := insert r.postcode g.postcodes,
                  distance_km := if r.distance_km < g.distance_km then r.distance_km
                    else g.distance_km }) := by
        simp only [groupStep, hlook]
      have hmem_old : ((r.locality, r.state), g) ∈ T.foldl groupStep [] :=
        dictLookup_some_mem hlook
      have hkey_mem : (r.locality, r.state) ∈ (T.foldl groupStep []).map Prod.fst :=
        List.mem_map.mpr ⟨_, hmem_old, rfl⟩
      obtain ⟨hg1, hg2, hg3, hg4, hg5⟩ := ih2 _ hmem_old
      refine ⟨?_, ?_, ?_⟩
      · rw [hset, dictModify_map_fst]
        exact ih1
      · intro e he
        rw [hset] at he
        rcases (mem_dictModify_of_lookup_some _ ih1 hlook e).mp he with ⟨hed, hne⟩ | rfl
        · obtain ⟨h1, h2, h3, h4, h5⟩ := ih2 e hed
          have hne2 : (r.locality, r.state) ≠ e.1 := fun h => hne h.symm
          rw [groupOf_append_ne T r hne2]
          exact ⟨h1, h2, h3, h4, h5⟩
        · rw [groupOf_append_eq T r rfl]
          refine ⟨hg1, hg2, ?_, ?_, ?_⟩
          · show insert r.postcode g.postcodes = _
            rw [hg3, List.map_append]
            rw [List.toFinset_append]
            simp only [List.map_cons, List.map_nil, List.toFinset_cons, List.toFinset_nil,
              insert_emptyc_eq]
            rw [Finset.insert_eq, Finset.union_comm]
          · show (if r.distance_km < g.distance_km then r.distance_km else g.distance_km) ∈ _
            rw [List.map_append]
            by_cases hc : r.distance_km < g.distance_km
            · rw [if_pos hc]
              apply List.mem_append.mpr
              exact Or.inr (by simp)
            · rw [if_neg hc]
              apply List.mem_append.mpr
              exact Or.inl hg4
          · intro x hx
            rw [List.map_append] at hx
            show (if r.distance_km < g.distance_km then r.distance_km else g.distance_km) ≤ x
            rcases List.mem_append.mp hx with hx | hx
            · by_cases hc : r.distance_km < g.distance_km
              · rw [if_pos hc]
                exact le_of_lt (lt_of_lt_of_le hc (hg5 x hx))
              · rw [if_neg hc]
                exact hg5 x hx
            · have hxr : x = r.distance_km := by simpa using hx
              by_cases hc : r.distance_km < g.distance_km
              · rw [if_pos hc, hxr]
              · rw [if_neg hc, hxr]
                exact le_of_not_lt hc
      · intro k
        rw [hset, dictModify_map_fst, List.map_append, List.mem_append]
        constructor
        · intro h
          exact Or.inl ((ih3 k).mp h)
        · rintro (h | h)
          · exact (ih3 k).mpr h
          · have : k = (r.locality, r.state) := by simpa using h
            rw [this]
            exact hkey_mem

/-! ## Claim C1 -/

/-- Claim C1: the claim says `search_by_radius` must not throw at
`center_lat = 0.0` and must skip the longitude narrowing there.  The
code divides by `111.0 * abs(lat)` with no guard, so at latitude 0 the
search raises `ZeroDivisionError` (for every distance model and every
record directory) instead of applying no longitude bound: the code
contradicts the documented intent. -/
theorem search_by_radius_zero_latitude (dist : ℚ → ℚ → ℚ → ℚ → ℚ) (rows : List DbRow) :
    search_by_radius dist rows 0 151 50
      = Except.error "ZeroDivisionError: float division by zero" := rfl

/-! ## Claim C10 -/

/-- Claim C10: `list_suburbs_in_radius` rejects every radius above 500
kilometres (and every radius ≤ 0) at its validation step, returning the
invalid-radius error without touching the search (`rest` is arbitrary
and unused). -/
theorem radius_bound_rejected {α : Type} (rest : α) (radius_km : ℚ)
    (h : 500 < radius_km ∨ radius_km ≤ 0) :
    list_suburbs_in_radius_check radius_km rest = RadiusCheck.invalidRadius := by
  unfold list_suburbs_in_radius_check
  rcases h with h | h
  · rw [if_pos (Or.inr h)]
  · rw [if_pos (Or.inl h)]

/-- Witness for C10 at the concrete radius 501 km. -/
theorem radius_bound_rejected_witness :
    ((500 : ℚ) < 501 ∨ (501 : ℚ) ≤ 0)
    ∧ list_suburbs_in_radius_check (501 : ℚ) (0 : Nat) = RadiusCheck.invalidRadius :=
  ⟨Or.inl (by decide), radius_bound_rejected (0 : Nat) 501 (Or.inl (by decide))⟩

/-! ## Claim C5 -/

/-- Claim C5: the claim says the split variant inserts a space after the
matching prefix's character length.  The table stores `("New", 4)`, one
more than the three characters of "New": on "Newcastle" the code
appends "Newc astle" and never produces "New castle".  (Only one split
variant is appended, as no table prefix is a prefix of another.) -/
theorem compound_split_newcastle :
    handle_compound_words "Newcastle" = ["Newcastle", "Newc astle"]
    ∧ "New castle" ∉ handle_compound_words "Newcastle" := by decide

/-! ## Claim C4 -/

/-- Counterexample for C4: for the two-word input "New Castle" the
whitespace-removed form and the two-word concatenation are both
appended — the returned sequence contains duplicates, refuting
"contains no two equal elements". -/
theorem compound_words_duplicate_cex :
    handle_compound_words "New Castle" = ["New Castle", "NewCastle", "NewCastle"]
    ∧ ¬ (handle_compound_words "New Castle").Nodup := by decide

theorem pyJoin_pair (w1 w2 : String) : pyJoin [w1, w2] = w1 ++ w2 := by
  show String.mk _ = String.mk _
  simp [pyJoin]

/-- Claim C4 (amended): the first element is always the unmodified
input, but the sequence is not deduplicated: for an input of exactly two
words the whitespace-removed form and the two-word concatenation appear
as two equal consecutive entries. -/
theorem compound_words_head_and_duplicates :
    (∀ text : String, (handle_compound_words text).head? = some text)
    ∧ (∀ text w1 w2 : String, pySplit text = [w1, w2] →
        ∃ rest, handle_compound_words text = text :: (w1 ++ w2) :: (w1 ++ w2) :: rest) := by
  constructor
  · intro text
    unfold handle_compound_words
    dsimp only
    repeat' split
    all_goals rfl
  · intro text w1 w2 hsplit
    have hjoin : pyJoin [w1, w2] = w1 ++ w2 := pyJoin_pair w1 w2
    unfold handle_compound_words
    rw [hsplit]
    dsimp only
    have h2 : 1 < ([w1, w2] : List String).length := by simp
    have h3 : ([w1, w2] : List String).length = 2 := by simp
    rw [if_pos h2, if_pos h3, hjoin]
    have hg : (([w1, w2] : List String).getD 0 "" ++ ([w1, w2] : List String).getD 1 "")
        = w1 ++ w2 := rfl
    rw [hg]
    split
    · exact ⟨_, rfl⟩
    · exact ⟨[], rfl⟩

/-! ## Claim C2 -/

/-- Claim C2: when some candidate normalizes (lowercase, strip) to the
query, `smart_match` returns exactly one match — the first such
candidate with confidence 1.0 and kind "exact" — independently of the
scorer, the phonetic encoder, every threshold and every flag: no fuzzy
or phonetic matching takes part. -/
theorem smart_match_exact_short_circuit (query : String) (candidates : List String)
    (h : ∃ c ∈ candidates, pyNormalize c = pyNormalize query) :
    ∃ c ∈ candidates, pyNormalize c = pyNormalize query
      ∧ ∀ (ratio : String → String → ℚ) (dmeta : String → String × String)
          (ft pt : ℚ) (ms : Nat) (ef ep uf up : Bool),
          smart_match ratio dmeta ft pt ms ef ep uf up query candidates
            = [⟨c, 1, some "exact", none⟩] := by
  have hsome : (candidates.find? (fun c => pyNormalize c == pyNormalize query)).isSome := by
    rw [List.find?_isSome]
    obtain ⟨c, hc, he⟩ := h
    exact ⟨c, hc, beq_iff_eq.mpr he⟩
  obtain ⟨c, hc⟩ := Option.isSome_iff_exists.mp hsome
  refine ⟨c, List.mem_of_find?_eq_some hc, ?_, ?_⟩
  · have hp := @List.find?_some String (fun c => pyNormalize c == pyNormalize query)
      c candidates hc
    exact beq_iff_eq.mp hp
  · intro ratio dmeta ft pt ms ef ep uf up
    unfold smart_match
    rw [hc]

/-- Witness for C2 on the spec's own example pool. -/
theorem smart_match_exact_short_circuit_witness :
    ∃ c ∈ ["Sydney", "Sydny"], pyNormalize c = pyNormalize "Sydney"
      ∧ ∀ (ratio : String → String → ℚ) (dmeta : String → String × String)
          (ft pt : ℚ) (ms : Nat) (ef ep uf up : Bool),
          smart_match ratio dmeta ft pt ms ef ep uf up "Sydney" ["Sydney", "Sydny"]
            = [⟨c, 1, some "exact", none⟩] :=
  smart_match_exact_short_circuit "Sydney" ["Sydney", "Sydny"] ⟨"Sydney", by decide, by decide⟩

/-! ## Claim C7 -/

theorem mem_phoneticCandidates_iff (ratio : String → String → ℚ)
    (dmeta : String → String × String) (query : String) (candidates : List String)
    (t : ℚ) (m : MatchRec) :
    m ∈ phoneticCandidates ratio dmeta query candidates t ↔
      ∃ c ∈ candidates, codesCrossMatch dmeta query c
        ∧ qmul t (mkRat 7 10) ≤ calculate_similarity ratio query c
        ∧ m = ⟨c, qmin (mkRat 19 20) (qadd (calculate_similarity ratio query c) (mkRat 1 10)),
                some "phonetic", none⟩ := by
  unfold phoneticCandidates
  rw [List.mem_filterMap]
  constructor
  · rintro ⟨c, hc, hf⟩
    by_cases h1 : codesCrossMatch dmeta query c
    · rw [if_pos h1] at hf
      dsimp only at hf
      by_cases h2 : qmul t (mkRat 7 10) ≤ calculate_similarity ratio query c
      · rw [if_pos h2] at hf
        exact ⟨c, hc, h1, h2, (Option.some_inj.mp hf).symm⟩
      · rw [if_neg h2] at hf
        exact absurd hf (by simp)
    · rw [if_neg h1] at hf
      exact absurd hf (by simp)
  · rintro ⟨c, hc, h1, h2, rfl⟩
    refine ⟨c, hc, ?_⟩
    rw [if_pos h1]
    dsimp only
    rw [if_pos h2]

theorem mem_phonetic_match_subset {ratio : String → String → ℚ}
    {dmeta : String → String × String} {ms : Nat} {query : String}
    {candidates : List String} {t : ℚ} {m : MatchRec}
    (hm : m ∈ phonetic_match ratio dmeta ms query candidates t) :
    m ∈ phoneticCandidates ratio dmeta query candidates t := by
  unfold phonetic_match at hm
  exact (List.perm_insertionSort confGE _).subset ((List.take_sublist _ _).subset hm)

/-- Claim C7 (amended): a candidate whose codes cross-match enters the
pre-truncation match list exactly when its similarity reaches
`phonetic_threshold × 0.7`, with confidence `min(0.95, similarity +
0.1)`; the function then returns only the `MAX_SUGGESTIONS`
highest-confidence entries of that list (so candidates beyond the cap
are dropped), and every returned phonetic match has confidence at most
0.95. -/
theorem phonetic_match_characterization (ratio : String → String → ℚ)
    (dmeta : String → String × String) (ms : Nat) (query : String)
    (candidates : List String) (t : ℚ) :
    (∀ m, m ∈ phoneticCandidates ratio dmeta query candidates t ↔
      ∃ c ∈ candidates, codesCrossMatch dmeta query c
        ∧ qmul t (mkRat 7 10) ≤ calculate_similarity ratio query c
        ∧ m = ⟨c, qmin (mkRat 19 20) (qadd (calculate_similarity ratio query c) (mkRat 1 10)),
                some "phonetic", none⟩)
    ∧ (∀ m ∈ phonetic_match ratio dmeta ms query candidates t,
        m ∈ phoneticCandidates ratio dmeta query candidates t
          ∧ m.confidence ≤ mkRat 19 20) := by
  refine ⟨mem_phoneticCandidates_iff ratio dmeta query candidates t, ?_⟩
  intro m hm
  have hm3 := mem_phonetic_match_subset hm
  refine ⟨hm3, ?_⟩
  obtain ⟨c, hc, h1, h2, heq⟩ :=
    (mem_phoneticCandidates_iff ratio dmeta query candidates t m).mp hm3
  rw [heq]
  exact qmin_le_left _ _

/-- Counterexample for C7: with six candidates that all cross-match and
all pass the similarity gate, the sixth passing candidate is absent from
the returned sequence — `phonetic_match` keeps only the top
`MAX_SUGGESTIONS = 5`, so "emitted iff it passes" fails as stated. -/
theorem phonetic_truncation_cex :
    codesCrossMatch metaConstTST "box" "c6"
    ∧ qmul (mkRat 17 20) (mkRat 7 10) ≤ calculate_similarity ratioConst100 "box" "c6"
    ∧ "c6" ∈ ["c1", "c2", "c3", "c4", "c5", "c6"]
    ∧ ¬ ∃ m ∈ phonetic_match ratioConst100 metaConstTST 5 "box"
        ["c1", "c2", "c3", "c4", "c5", "c6"] (mkRat 17 20), m.matchName = "c6" := by
  decide

/-! ## Claim C3 -/

theorem smart_match_none_eq (ratio : String → String → ℚ) (dmeta : String → String × String)
    (ft pt : ℚ) (ms : Nat) (ef ep uf up : Bool) (query : String) (candidates : List String)
    (hfind : candidates.find? (fun c => pyNormalize c == pyNormalize query) = none) :
    smart_match ratio dmeta ft pt ms ef ep uf up query candidates
      = ((((producedMatches ratio dmeta ft pt ms ef ep uf up query candidates).foldl
            considerInsert []).map Prod.snd).insertionSort confGE).take ms := by
  unfold smart_match
  rw [hfind]

theorem smart_match_some_eq (ratio : String → String → ℚ) (dmeta : String → String × String)
    (ft pt : ℚ) (ms : Nat) (ef ep uf up : Bool) (query : String) (candidates : List String)
    {c : String}
    (hfind : candidates.find? (fun c => pyNormalize c == pyNormalize query) = some c) :
    smart_match ratio dmeta ft pt ms ef ep uf up query candidates
      = [⟨c, 1, some "exact", none⟩] := by
  unfold smart_match
  rw [hfind]

theorem mem_smart_match_dict (ratio : String → String → ℚ) (dmeta : String → String × String)
    (ft pt : ℚ) (ms : Nat) (ef ep uf up : Bool) (query : String) (candidates : List String)
    {m : MatchRec}
    (hfind : candidates.find? (fun c => pyNormalize c == pyNormalize query) = none)
    (hm : m ∈ smart_match ratio dmeta ft pt ms ef ep uf up query candidates) :
    ∃ e ∈ (producedMatches ratio dmeta ft pt ms ef ep uf up query candidates).foldl
        considerInsert [], e.2 = m := by
  rw [smart_match_none_eq ratio dmeta ft pt ms ef ep uf up query candidates hfind] at hm
  have hm2 := (List.take_sublist _ _).subset hm
  have hm3 := (List.perm_insertionSort confGE _).subset hm2
  exact List.mem_map.mp hm3

/-- Claim C3: the sequence `smart_match` returns never holds two
candidates with the same matched name; and in the non-exact path, the
record kept for each name is the first produced record of maximal
confidence for that name — a strictly higher confidence replaces the
stored record, a tie keeps the first one produced. -/
theorem smart_match_dedup_invariant (ratio : String → String → ℚ)
    (dmeta : String → String × String) (ft pt : ℚ) (ms : Nat) (ef ep uf up : Bool)
    (query : String) (candidates : List String) :
    (((smart_match ratio dmeta ft pt ms ef ep uf up query candidates).map
        (fun m => m.matchName)).Nodup)
    ∧ (candidates.find? (fun c => pyNormalize c == pyNormalize query) = none →
      ∀ m ∈ smart_match ratio dmeta ft pt ms ef ep uf up query candidates,
        IsFirstMax
          ((producedMatches ratio dmeta ft pt ms ef ep uf up query candidates).filter
            (fun x => x.matchName == m.matchName)) m) := by
  rcases hfind : candidates.find? (fun c => pyNormalize c == pyNormalize query) with _ | c
  · obtain ⟨inv1, inv2, inv3⟩ :=
      foldl_considerInsert_inv (producedMatches ratio dmeta ft pt ms ef ep uf up query candidates)
    constructor
    · rw [smart_match_none_eq ratio dmeta ft pt ms ef ep uf up query candidates hfind]
      have hfst : (((producedMatches ratio dmeta ft pt ms ef ep uf up query
            candidates).foldl considerInsert []).map Prod.snd).map (fun m => m.matchName)
          = ((producedMatches ratio dmeta ft pt ms ef ep uf up query candidates).foldl
              considerInsert []).map Prod.fst := by
        rw [List.map_map]
        apply List.map_congr_left
        intro e he
        exact ((inv2 e he).1).symm
      have hperm : List.Perm
          (((((producedMatches ratio dmeta ft pt ms ef ep uf up query
            candidates).foldl considerInsert []).map Prod.snd).insertionSort confGE).map
            (fun m => m.matchName))
          ((((producedMatches ratio dmeta ft pt ms ef ep uf up query candidates).foldl
              considerInsert []).map Prod.snd).map (fun m => m.matchName)) :=
        (List.perm_insertionSort confGE _).map _
      have hnd : (((((producedMatches ratio dmeta ft pt ms ef ep uf up query
            candidates).foldl considerInsert []).map Prod.snd).insertionSort confGE).map
            (fun m => m.matchName)).Nodup := by
        rw [hperm.nodup_iff, hfst]
        exact inv1
      have hsub : ((List.take ms
            ((((producedMatches ratio dmeta ft pt ms ef ep uf up query candidates).foldl
              considerInsert []).map Prod.snd).insertionSort confGE)).map
            (fun m => m.matchName)).Sublist
          (((((producedMatches ratio dmeta ft pt ms ef ep uf up query candidates).foldl
              considerInsert []).map Prod.snd).insertionSort confGE).map
            (fun m => m.matchName)) :=
        List.Sublist.map _ (List.take_sublist _ _)
      exact hsub.nodup hnd
    · intro _ m hm
      obtain ⟨e, he, hsnd⟩ :=
        mem_smart_match_dict ratio dmeta ft pt ms ef ep uf up query candidates hfind hm
      obtain ⟨hek, hfm⟩ := inv2 e he
      rw [← hsnd, ← hek]
      exact hfm
  · constructor
    · rw [smart_match_some_eq ratio dmeta ft pt ms ef ep uf up query candidates hfind]
      simp
    · intro hnone
      exact absurd hnone (by simp)

/-! ## Claim C8 -/

theorem producedMatches_types (ratio : String → String → ℚ) (dmeta : String → String × String)
    (ft pt : ℚ) (ms : Nat) (ef ep uf up : Bool) (query : String) (candidates : List String) :
    ∀ m ∈ producedMatches ratio dmeta ft pt ms ef ep uf up query candidates,
      m.matchType = some "fuzzy"
        ∨ (m.matchType = some "phonetic" ∧ m.confidence ≤ mkRat 19 20) := by
  intro m hm
  unfold producedMatches at hm
  rw [List.mem_flatMap] at hm
  obtain ⟨v, hv, hm⟩ := hm
  rcases List.mem_append.mp hm with hm | hm
  · left
    by_cases h : (uf && ef) = true
    · rw [if_pos h] at hm
      obtain ⟨x, hx, hxm⟩ := List.mem_map.mp hm
      rw [← hxm]
    · rw [if_neg h] at hm
      exact absurd hm (by simp)
  · right
    by_cases h : (up && ep) = true
    · rw [if_pos h] at hm
      have hm3 := mem_phonetic_match_subset hm
      obtain ⟨c, hc, h1, h2, heq⟩ :=
        (mem_phoneticCandidates_iff ratio dmeta v candidates pt m).mp hm3
      rw [heq]
      exact ⟨rfl, qmin_le_left _ _⟩
    · rw [if_neg h] at hm
      exact absurd hm (by simp)

/-- Claim C8 (amended): a confidence of exactly 1.0 in a `smart_match`
result comes from the exact strategy or the fuzzy strategy only — the
phonetic strategy is capped at 0.95 and can never reach 1.0.  (The fuzzy
strategy does reach 1.0 on token reorderings, so 1.0 is not reserved for
exact matches; see the counterexample.) -/
theorem confidence_one_exact_or_fuzzy (ratio : String → String → ℚ)
    (dmeta : String → String × String) (ft pt : ℚ) (ms : Nat) (ef ep uf up : Bool)
    (query : String) (candidates : List String) :
    ∀ m ∈ smart_match ratio dmeta ft pt ms ef ep uf up query candidates,
      m.confidence = 1 → m.matchType = some "exact" ∨ m.matchType = some "fuzzy" := by
  intro m hm hconf
  rcases hfind : candidates.find? (fun c => pyNormalize c == pyNormalize query) with _ | c
  · obtain ⟨e, he, hsnd⟩ :=
      mem_smart_match_dict ratio dmeta ft pt ms ef ep uf up query candidates hfind hm
    obtain ⟨inv1, inv2, inv3⟩ :=
      foldl_considerInsert_inv (producedMatches ratio dmeta ft pt ms ef ep uf up query candidates)
    obtain ⟨hek, hfm⟩ := inv2 e he
    obtain ⟨l1, l2, hsplit, -, -⟩ := hfm
    have hmf : e.2 ∈ (producedMatches ratio dmeta ft pt ms ef ep uf up query
        candidates).filter (fun x => x.matchName == e.1) := by
      rw [hsplit]
      exact List.mem_append.mpr (Or.inr (List.mem_cons_self _ _))
    have hmP := List.mem_of_mem_filter hmf
    rcases producedMatches_types ratio dmeta ft pt ms ef ep uf up query candidates e.2 hmP
      with h | ⟨h1, h2⟩
    · right
      rw [← hsnd]
      exact h
    · exfalso
      rw [hsnd, hconf] at h2
      exact absurd h2 (by decide)
  · rw [smart_match_some_eq ratio dmeta ft pt ms ef ep uf up query candidates hfind] at hm
    have hm' : m = ⟨c, 1, some "exact", none⟩ := by simpa using hm
    left
    rw [hm']

/-- Witness for C8 on an exact-match pool. -/
theorem confidence_one_exact_or_fuzzy_witness :
    ((⟨"Sydney", 1, some "exact", none⟩ : MatchRec)
        ∈ smart_match ratioConst100 metaConstTST (mkRat 4 5) (mkRat 17 20) 5
            true true true true "Sydney" ["Sydney"])
    ∧ ((⟨"Sydney", 1, some "exact", none⟩ : MatchRec).confidence = 1)
    ∧ ((⟨"Sydney", 1, some "exact", none⟩ : MatchRec).matchType = some "exact"
        ∨ (⟨"Sydney", 1, some "exact", none⟩ : MatchRec).matchType = some "fuzzy") :=
  ⟨by decide, by decide,
    confidence_one_exact_or_fuzzy ratioConst100 metaConstTST (mkRat 4 5) (mkRat 17 20) 5
      true true true true "Sydney" ["Sydney"] ⟨"Sydney", 1, some "exact", none⟩
      (by decide) (by decide)⟩

/-- Counterexample for C8: on the token reordering "Melbourne Port" vs
candidate "Port Melbourne" the exact check fails but the token-sort
scorer gives 100, so the fuzzy strategy returns confidence 1.0 with
match kind "fuzzy" — 1.0 is not reserved for exact matches. -/
theorem fuzzy_confidence_one_cex :
    ∃ m ∈ smart_match token_sort_ratio metaEmpty (mkRat 4 5) (mkRat 17 20) 5
        true true true false "Melbourne Port" ["Port Melbourne"],
      m.confidence = 1 ∧ m.matchType ≠ some "exact" := by
  decide

/-! ## Claim C9 -/

/-- Claim C9 (amended): the grouping stage of `list_suburbs_in_radius`
returns exactly one entry per distinct `(name, state)` pair of the input
rows; each entry's postcode set is the union of its group's postcodes
and its `distance_km` is the group's minimum distance rounded to one
decimal place (the presentation rounding of the source); the sequence is
sorted by `distance_km` ascending. -/
theorem radius_grouping_spec (rows : List RadiusRow) :
    (((nearby_suburbs rows).map (fun e => (e.suburb, e.state))).Nodup)
    ∧ (∀ k, k ∈ (nearby_suburbs rows).map (fun e => (e.suburb, e.state))
        ↔ k ∈ rows.map (fun r => (r.locality, r.state)))
    ∧ (∀ e ∈ nearby_suburbs rows,
        e.postcodes = ((groupOf rows (e.suburb, e.state)).map (fun r => r.postcode)).toFinset
        ∧ ∃ dmin, dmin ∈ (groupOf rows (e.suburb, e.state)).map (fun r => r.distance_km)
            ∧ (∀ x ∈ (groupOf rows (e.suburb, e.state)).map (fun r => r.distance_km), dmin ≤ x)
            ∧ e.distance_km = pyRound 1 dmin)
    ∧ (nearby_suburbs rows).Pairwise entryDistLE := by
  obtain ⟨inv1, inv2, inv3⟩ := foldl_groupStep_inv rows
  have hfst : ((rows.foldl groupStep []).map (fun e => toNearbyEntry e.2)).map
        (fun e => (e.suburb, e.state))
      = (rows.foldl groupStep []).map Prod.fst := by
    rw [List.map_map]
    apply List.map_congr_left
    intro e he
    obtain ⟨h1, h2, -, -, -⟩ := inv2 e he
    show ((toNearbyEntry e.2).suburb, (toNearbyEntry e.2).state) = e.1
    show (e.2.suburb, e.2.state) = e.1
    rw [h1, h2]
  have hperm : List.Perm
      ((nearby_suburbs rows).map (fun e => (e.suburb, e.state)))
      (((rows.foldl groupStep []).map (fun e => toNearbyEntry e.2)).map
        (fun e => (e.suburb, e.state))) := by
    unfold nearby_suburbs
    exact (List.perm_insertionSort entryDistLE _).map _
  refine ⟨?_, ?_, ?_, ?_⟩
  · rw [hperm.nodup_iff, hfst]
    exact inv1
  · intro k
    rw [hperm.mem_iff, hfst]
    exact inv3 k
  · intro e he
    have he2 : e ∈ (rows.foldl groupStep []).map (fun e => toNearbyEntry e.2) := by
      unfold nearby_suburbs at he
      exact (List.perm_insertionSort entryDistLE _).subset he
    obtain ⟨ed, hed, hede⟩ := List.mem_map.mp he2
    obtain ⟨h1, h2, h3, h4, h5⟩ := inv2 ed hed
    have hkey : (e.suburb, e.state) = ed.1 := by
      rw [← hede]
      show (ed.2.suburb, ed.2.state) = ed.1
      rw [h1, h2]
    rw [hkey]
    refine ⟨?_, ed.2.distance_km, h4, h5, ?_⟩
    · rw [← hede]
      exact h3
    · rw [← hede]
      rfl
  · exact List.sorted_insertionSort entryDistLE _

/-- Counterexample for C9: two rows of one suburb at 5.24 km and 7.3 km
collapse into one entry whose `distance_km` is 5.2 — the minimum rounded
to one decimal — which differs from the group's exact minimum 5.24, so
"distance_km is the minimum distance" fails as stated. -/
theorem radius_rounding_cex :
    (nearby_suburbs cexRows).map (fun e => e.distance_km) = [mkRat 26 5]
    ∧ mkRat 131 25 ∈ (groupOf cexRows ("Bondi", "NSW")).map (fun r => r.distance_km)
    ∧ (∀ x ∈ (groupOf cexRows ("Bondi", "NSW")).map (fun r => r.distance_km),
        mkRat 131 25 ≤ x)
    ∧ mkRat 26 5 ≠ mkRat 131 25 := by
  decide

/-! ## Claim C6 -/

theorem find_best_matches_eq (ratio : String → String → ℚ) (query : String)
    (candidates : List String) (t : ℚ) (limit : Nat) :
    find_best_matches ratio query candidates t limit
      = ((processExtract ratio (expand_abbreviations query) candidates (limit * 2)).filterMap
          (fun m => if t ≤ qdiv m.2 100 then
              some (⟨m.1, pyRound 3 (qdiv m.2 100), none, some m.2⟩ : MatchRec)
            else none)).take limit := rfl

theorem take_isPrefix_take {α : Type} {l1 l2 : List α} (h : l1.IsPrefix l2) (n : Nat) :
    (l1.take n).IsPrefix (l2.take n) := by
  obtain ⟨t, rfl⟩ := h
  rw [List.take_append_eq_append_take]
  exact ⟨_, rfl⟩

theorem filterMapThreshold_mono {t1 t2 : ℚ} (h : t1 ≤ t2) :
    ∀ l : List (String × ℚ), l.Pairwise scoreGE →
      (l.filterMap (fun m => if t2 ≤ qdiv m.2 100 then
          some (⟨m.1, pyRound 3 (qdiv m.2 100), none, some m.2⟩ : MatchRec) else none)).IsPrefix
        (l.filterMap (fun m => if t1 ≤ qdiv m.2 100 then
          some (⟨m.1, pyRound 3 (qdiv m.2 100), none, some m.2⟩ : MatchRec) else none)) := by
  intro l
  induction l with
  | nil =>
    intro _
    exact ⟨[], rfl⟩
  | cons x xs ih =>
    intro hp
    rw [List.pairwise_cons] at hp
    obtain ⟨hx, hxs⟩ := hp
    rw [List.filterMap_cons, List.filterMap_cons]
    by_cases h2 : t2 ≤ qdiv x.2 100
    · have h1 : t1 ≤ qdiv x.2 100 := le_trans h h2
      rw [if_pos h2, if_pos h1]
      obtain ⟨tail, htail⟩ := ih hxs
      exact ⟨tail, by rw [List.cons_append, htail]⟩
    · rw [if_neg h2]
      by_cases h1 : t1 ≤ qdiv x.2 100
      · rw [if_pos h1]
        have hnil : xs.filterMap (fun m => if t2 ≤ qdiv m.2 100 then
            some (⟨m.1, pyRound 3 (qdiv m.2 100), none, some m.2⟩ : MatchRec) else none)
            = [] := by
          rw [List.filterMap_eq_nil_iff]
          intro a ha
          have hs : a.2 ≤ x.2 := hx a ha
          have hdiv : qdiv a.2 100 ≤ qdiv x.2 100 := by
            rw [qdiv_eq, qdiv_eq]
            exact (div_le_div_iff_of_pos_right (by norm_num)).mpr hs
          have hna : ¬ t2 ≤ qdiv a.2 100 := fun hc => h2 (le_trans hc hdiv)
          rw [if_neg hna]
        rw [hnil]
        exact ⟨_, rfl⟩
      · rw [if_neg h1]
        exact ih hxs

theorem find_best_matches_mono (ratio : String → String → ℚ) (query : String)
    (candidates : List String) (limit : Nat) {t1 t2 : ℚ} (h : t1 ≤ t2) :
    (find_best_matches ratio query candidates t2 limit).IsPrefix
      (find_best_matches ratio query candidates t1 limit) := by
  rw [find_best_matches_eq, find_best_matches_eq]
  apply take_isPrefix_take
  apply filterMapThreshold_mono h
  unfold processExtract
  exact List.Pairwise.sublist (List.take_sublist _ _) (List.sorted_insertionSort scoreGE _)

theorem producedMatches_names_mono (ratio : String → String → ℚ)
    (dmeta : String → String × String) (pt : ℚ) (ms : Nat) (ef ep uf up : Bool)
    (query : String) (candidates : List String) {t1 t2 : ℚ} (h : t1 ≤ t2) :
    ∀ k, k ∈ (producedMatches ratio dmeta t2 pt ms ef ep uf up query candidates).map
        (fun x => x.matchName)
      → k ∈ (producedMatches ratio dmeta t1 pt ms ef ep uf up query candidates).map
        (fun x => x.matchName) := by
  intro k hk
  rw [List.mem_map] at hk
  rw [List.mem_map]
  obtain ⟨m, hm, hkm⟩ := hk
  unfold producedMatches at hm
  rw [List.mem_flatMap] at hm
  obtain ⟨v, hv, hm⟩ := hm
  rcases List.mem_append.mp hm with hm | hm
  · by_cases hc : (uf && ef) = true
    · rw [if_pos hc] at hm
      rw [List.mem_map] at hm
      obtain ⟨x, hx, hxm⟩ := hm
      have hx1 : x ∈ find_best_matches ratio v candidates t1 5 :=
        (find_best_matches_mono ratio v candidates 5 h).sublist.subset hx
      refine ⟨m, ?_, hkm⟩
      unfold producedMatches
      rw [List.mem_flatMap]
      refine ⟨v, hv, ?_⟩
      apply List.mem_append.mpr
      left
      rw [if_pos hc, List.mem_map]
      exact ⟨x, hx1, hxm⟩
    · rw [if_neg hc] at hm
      exact absurd hm (by simp)
  · refine ⟨m, ?_, hkm⟩
    unfold producedMatches
    rw [List.mem_flatMap]
    exact ⟨v, hv, List.mem_append.mpr (Or.inr hm)⟩

theorem foldl_considerInsert_length (S : List MatchRec) :
    (S.foldl considerInsert []).length
      = ((S.map (fun x => x.matchName)).toFinset).card := by
  obtain ⟨inv1, inv2, inv3⟩ := foldl_considerInsert_inv S
  have h1 : (S.foldl considerInsert []).length
      = ((S.foldl considerInsert []).map Prod.fst).length := (List.length_map _ _).symm
  rw [h1, ← List.toFinset_card_of_nodup inv1]
  congr 1
  apply Finset.ext
  intro k
  rw [List.mem_toFinset, List.mem_toFinset]
  exact inv3 k

/-- Claim C6: for a fixed query, candidate pool, scorer, phonetic
settings and flags, raising the fuzzy threshold never increases the
number of results `smart_match` returns. -/
theorem fuzzy_threshold_monotone (ratio : String → String → ℚ)
    (dmeta : String → String × String) (pt : ℚ) (ms : Nat) (ef ep uf up : Bool)
    (query : String) (candidates : List String) (t1 t2 : ℚ) (h : t1 ≤ t2) :
    (smart_match ratio dmeta t2 pt ms ef ep uf up query candidates).length
      ≤ (smart_match ratio dmeta t1 pt ms ef ep uf up query candidates).length := by
  rcases hfind : candidates.find? (fun c => pyNormalize c == pyNormalize query) with _ | c
  · rw [smart_match_none_eq ratio dmeta t2 pt ms ef ep uf up query candidates hfind,
      smart_match_none_eq ratio dmeta t1 pt ms ef ep uf up query candidates hfind]
    rw [List.length_take, List.length_take]
    apply min_le_min (le_refl ms)
    rw [List.length_insertionSort, List.length_insertionSort, List.length_map,
      List.length_map, foldl_considerInsert_length, foldl_considerInsert_length]
    apply Finset.card_le_card
    intro k hk
    rw [List.mem_toFinset] at hk
    rw [List.mem_toFinset]
    exact producedMatches_names_mono ratio dmeta pt ms ef ep uf up query candidates h k hk
  · rw [smart_match_some_eq ratio dmeta t2 pt ms ef ep uf up query candidates hfind,
      smart_match_some_eq ratio dmeta t1 pt ms ef ep uf up query candidates hfind]

/-- Witness for C6 at thresholds 0.4 ≤ 0.8 on a concrete pool. -/
theorem fuzzy_threshold_monotone_witness :
    ((mkRat 2 5 : ℚ) ≤ mkRat 4 5)
    ∧ (smart_match ratioConst100 metaEmpty (mkRat 4 5) (mkRat 17 20) 5 true true true false
        "Newcastle" ["Newcastle North", "New Town"]).length
      ≤ (smart_match ratioConst100 metaEmpty (mkRat 2 5) (mkRat 17 20) 5 true true true false
        "Newcastle" ["Newcastle North", "New Town"]).length :=
  ⟨by decide,
    fuzzy_threshold_monotone ratioConst100 metaEmpty (mkRat 17 20) 5 true true true false
      "Newcastle" ["Newcastle North", "New Town"] (mkRat 2 5) (mkRat 4 5) (by decide)⟩
